import Mathlib

/-!
# Verification of doomfront's general-purpose LL parser

Shallow embedding of `src/doomfront/src/parser.rs` (the `Parser` type, its
event log, and the `finish` tree builder) together with proofs about the
properties its documentation states.

Conventions of the embedding:
* Rust panics are modelled as `none` (for `Option`-returning operations) or
  `Except.error` carrying the panic diagnostic (for `nth`, whose only panic
  carries the stall diagnostic).
* Byte indices into the UTF-8 source are modelled as element indices into a
  `List Char`; `&source[a..b]` becomes `slice source a b`.
* `rowan::GreenNodeBuilder` (an external crate dependency of `finish`) is
  modelled by `Builder`: `start_node` pushes a frame, `token` appends a leaf
  to the innermost frame, `finish_node` pops a frame and attaches it as the
  last child of the next frame, and `Builder.finish` succeeds exactly when
  the frame stack is empty and exactly one root node was built (rowan
  asserts `children.len() == 1` and that the sole child is a node).
-/

namespace Viletech

variable {Token Kind : Type}

/-- `Lexeme` from parser.rs: one classified slice of source, `(kind, span)`.
`span` is the half-open index range `(start, stop)`. -/
structure Lexeme (Token : Type) where
  kind : Token
  span : Nat × Nat
  deriving DecidableEq, Repr

/-- The part of the `LangExt` trait that `Parser` uses: the distinguished
end-of-file token, the error node kind, and the conversion from `Kind` to a
raw `rowan::SyntaxKind` (modelled as `Nat`). -/
structure LangExt (Token Kind : Type) where
  EOF : Token
  ERR_NODE : Kind
  kind_to_raw : Kind → Nat

/-- The `Event` enum from parser.rs. Kinds are stored raw (as `Nat`),
exactly as the Rust code stores `rowan::SyntaxKind` values. -/
inductive Event where
  | Open (kind : Nat)
  | Close
  | Advance (kind : Nat)
  | AdvanceN (kind : Nat) (count : Nat)
  deriving DecidableEq, Repr

/-- The `Error` struct from parser.rs: expected alternatives plus the
offending (or synthetic end-of-file) lexeme. -/
structure Error (Token : Type) where
  expected : List String
  found : Lexeme Token
  deriving DecidableEq, Repr

/-- The `Parser` struct from parser.rs. `fuel` is a `Cell<u32>` in Rust;
since `nth` both reads and writes it, operations that touch it return an
updated `Parser`. -/
structure Parser (Token : Type) where
  source : List Char
  tokens : List (Lexeme Token)
  pos : Nat
  fuel : Nat
  events : List Event
  errors : List (Error Token)

/-- `OpenMark` from parser.rs: an index into the event log. -/
structure OpenMark where
  val : Nat
  deriving DecidableEq, Repr

/-- `CloseMark` from parser.rs: the index of the `Open` event of a closed
subtree. -/
structure CloseMark where
  val : Nat
  deriving DecidableEq, Repr

/-- `&source[a..b]` on the `List Char` model of the source text. -/
def slice (source : List Char) (a b : Nat) : List Char :=
  (source.take b).drop a

/-- ASCII lower-casing of one character, as used by Rust's
`eq_ignore_ascii_case`. -/
def asciiLower (c : Char) : Char :=
  if 'A' ≤ c ∧ c ≤ 'Z' then Char.ofNat (c.toNat + 32) else c

/-- Rust's `str::eq_ignore_ascii_case` on the `List Char` model. -/
def eq_ignore_ascii_case (a b : List Char) : Bool :=
  a.map asciiLower == b.map asciiLower

/-- The synthetic end-of-file lexeme parser.rs fabricates when the cursor
is past the last real lexeme: the EOF token spanning `source.len()..source.len()`. -/
def syntheticEOF (L : LangExt Token Kind) (p : Parser Token) : Lexeme Token :=
  { kind := L.EOF, span := (p.source.length, p.source.length) }

/-- `Parser::eof`: whether every lexeme has been consumed, by equality of
`pos` with the stream length. -/
def Parser.eof (p : Parser Token) : Bool :=
  p.pos == p.tokens.length

/-- `Parser::open`: append an `Open` event with the placeholder error kind
and return a mark addressing it. -/
def Parser.openNode (L : LangExt Token Kind) (p : Parser Token) :
    Parser Token × OpenMark :=
  ({ p with events := p.events ++ [Event.Open (L.kind_to_raw L.ERR_NODE)] },
   ⟨p.events.length⟩)

/-- `Parser::close`: overwrite the `Open` event at the mark with the real
kind and append a `Close` event. The Rust indexing `self.events[mark.0] = …`
panics when the index is out of bounds, hence the `Option`. -/
def Parser.close (L : LangExt Token Kind) (p : Parser Token) (mark : OpenMark)
    (syn : Kind) : Option (Parser Token × CloseMark) :=
  if mark.val < p.events.length then
    some ({ p with events :=
              (p.events.set mark.val (Event.Open (L.kind_to_raw syn))) ++ [Event.Close] },
          ⟨mark.val⟩)
  else none

/-- `Parser::open_before`: insert a new pending `Open` (placeholder error
kind) immediately before the `Open` addressed by the close mark.
`Vec::insert` panics past the end, hence the `Option`. -/
def Parser.open_before (L : LangExt Token Kind) (p : Parser Token)
    (mark : CloseMark) : Option (Parser Token × OpenMark) :=
  if mark.val ≤ p.events.length then
    some ({ p with events :=
              p.events.take mark.val
                ++ Event.Open (L.kind_to_raw L.ERR_NODE) :: p.events.drop mark.val },
          ⟨mark.val⟩)
  else none

/-- `Parser::advance`: asserts `!self.eof()` (modelled by `none`), resets
fuel to 256, appends an `Advance` event and moves the cursor by one. -/
def Parser.advance (L : LangExt Token Kind) (p : Parser Token) (syn : Kind) :
    Option (Parser Token) :=
  if p.eof then none
  else some { p with
    fuel := 256,
    events := p.events ++ [Event.Advance (L.kind_to_raw syn)],
    pos := p.pos + 1 }

/-- `Parser::advance_n`: asserts `tokens >= 1` (modelled by `none`), resets
fuel, appends an `AdvanceN` event and moves the cursor by `count` — with no
check against the stream length. -/
def Parser.advance_n (L : LangExt Token Kind) (p : Parser Token) (syn : Kind)
    (count : Nat) : Option (Parser Token) :=
  if 1 ≤ count then
    some { p with
      fuel := 256,
      events := p.events ++ [Event.AdvanceN (L.kind_to_raw syn) count],
      pos := p.pos + count }
  else none

/-- `Parser::nth`: panics with the stall diagnostic when fuel is exhausted
(the Rust panic message is `parser is not advancing (stuck at {span})`; the
model keeps its static text), otherwise decrements fuel and returns the
token `lookahead` positions ahead, or `EOF` past the end. -/
def Parser.nth (L : LangExt Token Kind) (p : Parser Token) (lookahead : Nat) :
    Except String (Token × Parser Token) :=
  if p.fuel = 0 then Except.error "parser is not advancing"
  else Except.ok
    (((p.tokens.get? (p.pos + lookahead)).map Lexeme.kind).getD L.EOF,
     { p with fuel := p.fuel - 1 })

/-- `Parser::raise`: append one `Error` recording the expected alternatives
and the current (or synthetic end-of-file) lexeme. Nothing else changes. -/
def Parser.raise (L : LangExt Token Kind) (p : Parser Token)
    (expected : List String) : Parser Token :=
  { p with errors := p.errors ++
      [{ expected := expected,
         found := (p.tokens.get? p.pos).getD (syntheticEOF L p) }] }

/-- `Parser::at_str_nc`: reads the current lexeme directly from the token
vector (not through `nth`), substituting the synthetic end-of-file lexeme
past the end, and compares its kind and its source slice
ASCII-case-insensitively against the given string. -/
def Parser.at_str_nc [DecidableEq Token] (L : LangExt Token Kind)
    (p : Parser Token) (token : Token) (string : List Char) : Bool :=
  let lexeme := (p.tokens.get? p.pos).getD (syntheticEOF L p)
  decide (lexeme.kind = token)
    && eq_ignore_ascii_case (slice p.source lexeme.span.1 lexeme.span.2) string

/-- `Parser::advance_with_error`: open a node, raise, advance (which
asserts `!eof`), and close the node with the error kind. -/
def Parser.advance_with_error (L : LangExt Token Kind) (p : Parser Token)
    (syn : Kind) (expected : List String) : Option (Parser Token) :=
  match Parser.advance L (Parser.raise L (Parser.openNode L p).1 expected) syn with
  | none => none
  | some p3 =>
    match Parser.close L p3 (Parser.openNode L p).2 L.ERR_NODE with
    | none => none
    | some pc => some pc.1

/-! ## The rowan green-tree builder and `Parser::finish` -/

/-- One element of a green tree: an interior node (raw kind + children in
order) or a leaf token (raw kind + the literal source text it covers). -/
inductive GreenElement where
  | node (kind : Nat) (children : List GreenElement)
  | token (kind : Nat) (text : List Char)
  deriving Repr

/-- The root returned by `finish`: a node's kind and children. -/
structure GreenNode where
  kind : Nat
  children : List GreenElement
  deriving Repr

mutual

/-- The literal text under one green element, leaves concatenated in order. -/
def leafTextEl : GreenElement → List Char
  | GreenElement.node _ children => leafTextList children
  | GreenElement.token _ text => text

/-- The literal text under a list of green elements, in order. -/
def leafTextList : List GreenElement → List Char
  | [] => []
  | e :: es => leafTextEl e ++ leafTextList es

end

/-- The leaf text of the whole tree, in order. -/
def GreenNode.leafText (g : GreenNode) : List Char :=
  leafTextList g.children

/-- State of `rowan::GreenNodeBuilder`: a stack of in-progress frames
(innermost first; each frame is the node kind plus children collected so
far) and the list of already-completed top-level elements. -/
structure Builder where
  stack : List (Nat × List GreenElement)
  top : List GreenElement

/-- `GreenNodeBuilder::start_node`: push a fresh frame. -/
def Builder.startNode (b : Builder) (kind : Nat) : Builder :=
  ⟨(kind, []) :: b.stack, b.top⟩

/-- `GreenNodeBuilder::token`: attach a leaf to the innermost frame, or to
the top level when no frame is open. -/
def Builder.token (b : Builder) (kind : Nat) (text : List Char) : Builder :=
  match b.stack with
  | [] => ⟨[], b.top ++ [GreenElement.token kind text]⟩
  | (k, cs) :: rest => ⟨(k, cs ++ [GreenElement.token kind text]) :: rest, b.top⟩

/-- `GreenNodeBuilder::finish_node`: pop the innermost frame into a node and
attach it as the last child of the enclosing frame (or the top level).
Panics (`none`) when no frame is open. -/
def Builder.finishNode (b : Builder) : Option Builder :=
  match b.stack with
  | [] => none
  | (k, cs) :: rest =>
    match rest with
    | [] => some ⟨[], b.top ++ [GreenElement.node k cs]⟩
    | (k2, cs2) :: rest2 =>
      some ⟨(k2, cs2 ++ [GreenElement.node k cs]) :: rest2, b.top⟩

/-- `GreenNodeBuilder::finish`: succeeds exactly when no frame remains open
and exactly one root element was built, and that element is a node. -/
def Builder.finish (b : Builder) : Option GreenNode :=
  match b.stack, b.top with
  | [], [GreenElement.node k cs] => some ⟨k, cs⟩
  | _, _ => none

/-- `it.next().unwrap()` performed `n` times up front: `some (taken, rest)`
when the list holds at least `n` elements. -/
def splitN (l : List α) (n : Nat) : Option (List α × List α) :=
  if n ≤ l.length then some (l.take n, l.drop n) else none

/-- The event-replay loop of `Parser::finish`, returning the builder state
and the lexemes that remain unconsumed, or `none` on any panic
(`tokens.next().unwrap()` on an exhausted stream, `finish_node` with no open
frame).

Mirrors the source exactly, including its `AdvanceN` arms: `AdvanceN(_, 1)`
draws one lexeme; `AdvanceN(_, n)` for `n ≥ 2` draws a first lexeme, loops
`n - 1` further draws, then draws one more for the end of the folded span —
`n + 1` lexemes in total; `AdvanceN(_, 0)` (unreachable through
`advance_n`) panics in the `0..(n - 1)` bound computation. -/
def replayEvents (source : List Char) :
    List Event → List (Lexeme Token) → Builder →
    Option (Builder × List (Lexeme Token))
  | [], toks, b => some (b, toks)
  | Event.Open k :: rest, toks, b =>
    replayEvents source rest toks (b.startNode k)
  | Event.Close :: rest, toks, b =>
    match b.finishNode with
    | none => none
    | some b2 => replayEvents source rest toks b2
  | Event.Advance k :: rest, toks, b =>
    match toks with
    | [] => none
    | lx :: toks2 =>
      replayEvents source rest toks2 (b.token k (slice source lx.span.1 lx.span.2))
  | Event.AdvanceN _ 0 :: _, _, _ => none
  | Event.AdvanceN k 1 :: rest, toks, b =>
    match toks with
    | [] => none
    | lx :: toks2 =>
      replayEvents source rest toks2 (b.token k (slice source lx.span.1 lx.span.2))
  | Event.AdvanceN k (m + 2) :: rest, toks, b =>
    match toks with
    | [] => none
    | first :: toks1 =>
      match splitN toks1 (m + 1) with
      | none => none
      | some (_, toks2) =>
        match toks2 with
        | [] => none
        | last :: toks3 =>
          replayEvents source rest toks3
            (b.token k (slice source first.span.1 last.span.2))

/-- `Parser::finish`: replay the event log against the lexeme stream, assert
that every lexeme was drawn (`not all tokens were consumed`), and ask the
builder for the root. `none` models every panic inside `finish`. -/
def Parser.finish (p : Parser Token) : Option (GreenNode × List (Error Token)) :=
  match replayEvents p.source p.events p.tokens ⟨[], []⟩ with
  | none => none
  | some (b, rest) =>
    if rest.isEmpty then
      match b.finish with
      | none => none
      | some root => some (root, p.errors)
    else none

/-- How many lexemes the replay loop of `finish` actually draws for each
event: 1 per `Advance` and `AdvanceN(_, 1)`, `n + 1` per `AdvanceN(_, n)`
with `n ≥ 2` (the loop's off-by-one), and 1 for the unreachable
`AdvanceN(_, 0)` (drawn before the arm panics). -/
def consumedCount : List Event → Nat
  | [] => 0
  | Event.Advance _ :: rest => 1 + consumedCount rest
  | Event.AdvanceN _ 0 :: rest => 1 + consumedCount rest
  | Event.AdvanceN _ 1 :: rest => 1 + consumedCount rest
  | Event.AdvanceN _ (m + 2) :: rest => (m + 3) + consumedCount rest
  | _ :: rest => consumedCount rest

/-- The consumption count in the words of the specification, for comparison
with `consumedCount`: `Advance` consumes one lexeme and `AdvanceN(kind, n)`
is counted as `n` lexemes. -/
def specConsumedCount : List Event → Nat
  | [] => 0
  | Event.Advance _ :: rest => 1 + specConsumedCount rest
  | Event.AdvanceN _ n :: rest => n + specConsumedCount rest
  | _ :: rest => specConsumedCount rest

/-- Opens appearing in an event log. -/
def countOpen : List Event → Nat
  | [] => 0
  | Event.Open _ :: rest => countOpen rest + 1
  | _ :: rest => countOpen rest

/-- Closes appearing in an event log. -/
def countClose : List Event → Nat
  | [] => 0
  | Event.Close :: rest => countClose rest + 1
  | _ :: rest => countClose rest

/-- Decides that the lexemes' spans tile the source exactly from index `n`
up to index `m`: each span starts where the previous one stopped, is
well-ordered (`start ≤ stop`), and the last stops at `m`. -/
def coversFrom : Nat → List (Lexeme Token) → Nat → Bool
  | n, [], m => n == m
  | n, lx :: rest, m =>
    (lx.span.1 == n) && decide (lx.span.1 ≤ lx.span.2) && coversFrom lx.span.2 rest m

/-! ## Call traces over the cursor (for the fuel-liveness property) -/

/-- One grammar-driver step observable by the fuel counter: a lookahead
call (`Parser::nth`, directly or through `at`/`at_any`/`at_if`) or an
advance (`Parser::advance`). -/
inductive Op (Kind : Type) where
  | look (lookahead : Nat)
  | adv (syn : Kind)

/-- Whether a step is a lookahead call. -/
def isLook : Op Kind → Bool
  | Op.look _ => true
  | Op.adv _ => false

/-- Run a trace of steps. A stalled `nth` propagates its diagnostic; the
`assert!(!self.eof())` in `advance` is a distinct panic. -/
def runOps (L : LangExt Token Kind) :
    Parser Token → List (Op Kind) → Except String (Parser Token)
  | p, [] => Except.ok p
  | p, Op.look k :: rest =>
    match Parser.nth L p k with
    | Except.error e => Except.error e
    | Except.ok tp => runOps L tp.2 rest
  | p, Op.adv syn :: rest =>
    match Parser.advance L p syn with
    | none => Except.error "assertion failed: parser advanced at end of input"
    | some p2 => runOps L p2 rest

/-- A trace in which every sequence of consecutive lookahead calls with no
intervening advance has length at most 256: blocks of at most 256
lookaheads each followed by an advance, ending in a final block of at most
256 lookaheads. -/
inductive WellPaced : List (Op Kind) → Prop where
  | done (os : List (Op Kind)) :
      (∀ o ∈ os, isLook o = true) → os.length ≤ 256 → WellPaced os
  | block (pre : List (Op Kind)) (syn : Kind) (rest : List (Op Kind)) :
      (∀ o ∈ pre, isLook o = true) → pre.length ≤ 256 → WellPaced rest →
      WellPaced (pre ++ Op.adv syn :: rest)

/-- Well-nested event-log segments, indexed by the number of lexemes the
replay loop draws for them: leaf advances, or a complete
`Open …inner… Close` subtree followed by more such segments. -/
inductive Nested : List Event → Nat → Prop where
  | nil : Nested [] 0
  | adv (k : Nat) {es : List Event} {n : Nat} :
      Nested es n → Nested (Event.Advance k :: es) (n + 1)
  | advN1 (k : Nat) {es : List Event} {n : Nat} :
      Nested es n → Nested (Event.AdvanceN k 1 :: es) (n + 1)
  | advNm (k m : Nat) {es : List Event} {n : Nat} :
      Nested es n → Nested (Event.AdvanceN k (m + 2) :: es) (n + (m + 3))
  | node (k : Nat) {inner es : List Event} {n₁ n₂ : Nat} :
      Nested inner n₁ → Nested es n₂ →
      Nested (Event.Open k :: inner ++ Event.Close :: es) (n₁ + n₂)

/-! ## Basic lemmas about slices, coverage and the builder -/

theorem slice_nil (s : List Char) (n : Nat) : slice s n n = [] := by
  unfold slice
  rw [List.drop_eq_nil_iff]
  calc (s.take n).length = n ⊓ s.length := List.length_take n s
    _ ≤ n := inf_le_left

theorem slice_all (s : List Char) : slice s 0 s.length = s := by
  unfold slice
  rw [List.take_length, List.drop_zero]

theorem slice_append {s : List Char} {a b c : Nat} (h₁ : a ≤ b) (h₂ : b ≤ c)
    (h₃ : c ≤ s.length) : slice s a b ++ slice s b c = slice s a c := by
  have hub : (s.take c).take b = s.take b := by
    rw [List.take_take, inf_eq_left.mpr h₂]
  have hlb : (s.take b).length = b := by
    rw [List.length_take, inf_eq_left.mpr (h₂.trans h₃)]
  unfold slice
  conv_rhs => rw [← List.take_append_drop b (s.take c)]
  rw [List.drop_append_eq_append_drop, hub, hlb]
  have hab : a - b = 0 := by omega
  rw [hab, List.drop_zero]

theorem coversFrom_cons_iff {n m : Nat} {lx : Lexeme Token} {rest : List (Lexeme Token)} :
    coversFrom n (lx :: rest) m = true ↔
      lx.span.1 = n ∧ lx.span.1 ≤ lx.span.2 ∧ coversFrom lx.span.2 rest m = true := by
  simp [coversFrom, Bool.and_eq_true, and_assoc]

theorem coversFrom_le {toks : List (Lexeme Token)} :
    ∀ {n m : Nat}, coversFrom n toks m = true → n ≤ m := by
  induction toks with
  | nil =>
    intro n m h
    simp [coversFrom] at h
    omega
  | cons lx rest ih =>
    intro n m h
    rw [coversFrom_cons_iff] at h
    obtain ⟨h1, h2, h3⟩ := h
    have := ih h3
    omega

theorem coversFrom_drop {toks : List (Lexeme Token)} :
    ∀ (j : Nat) {n m : Nat}, coversFrom n toks m = true →
      ∃ k, n ≤ k ∧ coversFrom k (toks.drop j) m = true := by
  induction toks with
  | nil =>
    intro j n m h
    exact ⟨n, le_refl n, by simpa [List.drop_nil] using h⟩
  | cons lx rest ih =>
    intro j n m h
    match j with
    | 0 => exact ⟨n, le_refl n, h⟩
    | j + 1 =>
      rw [coversFrom_cons_iff] at h
      obtain ⟨h1, h2, h3⟩ := h
      obtain ⟨k, hk, hc⟩ := ih j h3
      exact ⟨k, by omega, by simpa [List.drop_succ_cons] using hc⟩

theorem splitN_some {l : List α} {n : Nat} {a b : List α}
    (h : splitN l n = some (a, b)) :
    a = l.take n ∧ b = l.drop n ∧ n ≤ l.length := by
  unfold splitN at h
  by_cases hle : n ≤ l.length
  · rw [if_pos hle] at h
    simp only [Option.some.injEq, Prod.mk.injEq] at h
    exact ⟨h.1.symm, h.2.symm, hle⟩
  · rw [if_neg hle] at h
    cases h

theorem leafTextList_append (xs ys : List GreenElement) :
    leafTextList (xs ++ ys) = leafTextList xs ++ leafTextList ys := by
  induction xs with
  | nil => simp [leafTextList]
  | cons e es ih => simp [leafTextList, ih]

/-- Concatenated leaf text of the (outermost-first) open frames' children. -/
def stackText : List (Nat × List GreenElement) → List Char
  | [] => []
  | (_, cs) :: rest => stackText rest ++ leafTextList cs

/-- All leaf text accumulated in a builder so far, in source order. -/
def Builder.pending (b : Builder) : List Char :=
  leafTextList b.top ++ stackText b.stack

theorem pending_startNode (b : Builder) (k : Nat) :
    (b.startNode k).pending = b.pending := by
  simp [Builder.pending, Builder.startNode, stackText, leafTextList]

theorem pending_token (b : Builder) (k : Nat) (t : List Char) :
    (b.token k t).pending = b.pending ++ t := by
  obtain ⟨st, tp⟩ := b
  cases st with
  | nil =>
    simp [Builder.pending, Builder.token, stackText, leafTextList_append,
      leafTextList, leafTextEl]
  | cons fr rest =>
    obtain ⟨kk, cs⟩ := fr
    simp [Builder.pending, Builder.token, stackText, leafTextList_append,
      leafTextList, leafTextEl, List.append_assoc]

theorem pending_finishNode {b b2 : Builder} (h : b.finishNode = some b2) :
    b2.pending = b.pending := by
  obtain ⟨st, tp⟩ := b
  match st with
  | [] => simp [Builder.finishNode] at h
  | [(k, cs)] =>
    simp only [Builder.finishNode, Option.some.injEq] at h
    subst h
    simp [Builder.pending, stackText, leafTextList_append, leafTextList,
      leafTextEl]
  | (k, cs) :: (k2, cs2) :: rest =>
    simp only [Builder.finishNode, Option.some.injEq] at h
    subst h
    simp [Builder.pending, stackText, leafTextList_append, leafTextList,
      leafTextEl, List.append_assoc]

theorem finish_pending {b : Builder} {g : GreenNode}
    (h : b.finish = some g) : GreenNode.leafText g = b.pending := by
  unfold Builder.finish at h
  split at h
  · next k cs hst htp =>
    simp only [Option.some.injEq] at h
    subst h
    simp [GreenNode.leafText, Builder.pending, hst, htp, stackText,
      leafTextList, leafTextEl]
  · cases h

/-! ## Replay invariants -/

/-- Replay preserves the tiling invariant: starting from lexemes that tile
`[n, src.length)`, a successful replay leaves lexemes tiling `[k, src.length)`
for some `k ≥ n` and appends exactly `slice src n k` to the builder's
pending leaf text. -/
theorem replay_covers (src : List Char) :
    ∀ (es : List Event) (toks : List (Lexeme Token)) (b : Builder) (n : Nat)
      (b' : Builder) (toks' : List (Lexeme Token)),
      coversFrom n toks src.length = true →
      replayEvents src es toks b = some (b', toks') →
      ∃ k, n ≤ k ∧ coversFrom k toks' src.length = true ∧
        Builder.pending b' = Builder.pending b ++ slice src n k := by
  intro es
  induction es with
  | nil =>
    intro toks b n b' toks' hcov hrep
    simp only [replayEvents, Option.some.injEq, Prod.mk.injEq] at hrep
    obtain ⟨hb, ht⟩ := hrep
    subst hb; subst ht
    exact ⟨n, le_refl n, hcov, by rw [slice_nil, List.append_nil]⟩
  | cons e rest ih =>
    intro toks b n b' toks' hcov hrep
    cases e with
    | Open k =>
      simp only [replayEvents] at hrep
      obtain ⟨kk, hk, hc, hp⟩ := ih toks (b.startNode k) n b' toks' hcov hrep
      exact ⟨kk, hk, hc, by rw [hp, pending_startNode]⟩
    | Close =>
      cases hfn : b.finishNode with
      | none => simp [replayEvents, hfn] at hrep
      | some b2 =>
        simp only [replayEvents, hfn] at hrep
        obtain ⟨kk, hk, hc, hp⟩ := ih toks b2 n b' toks' hcov hrep
        exact ⟨kk, hk, hc, by rw [hp, pending_finishNode hfn]⟩
    | Advance k =>
      cases toks with
      | nil => simp [replayEvents] at hrep
      | cons lx toks2 =>
        simp only [replayEvents] at hrep
        rw [coversFrom_cons_iff] at hcov
        obtain ⟨h1, h2, h3⟩ := hcov
        obtain ⟨kk, hk, hc, hp⟩ := ih toks2 _ lx.span.2 b' toks' h3 hrep
        have hkk : kk ≤ src.length := coversFrom_le hc
        refine ⟨kk, by omega, hc, ?_⟩
        rw [hp, pending_token, h1, List.append_assoc,
          slice_append (by omega) hk hkk]
    | AdvanceN k cnt =>
      match cnt with
      | 0 => simp [replayEvents] at hrep
      | 1 =>
        cases toks with
        | nil => simp [replayEvents] at hrep
        | cons lx toks2 =>
          simp only [replayEvents] at hrep
          rw [coversFrom_cons_iff] at hcov
          obtain ⟨h1, h2, h3⟩ := hcov
          obtain ⟨kk, hk, hc, hp⟩ := ih toks2 _ lx.span.2 b' toks' h3 hrep
          have hkk : kk ≤ src.length := coversFrom_le hc
          refine ⟨kk, by omega, hc, ?_⟩
          rw [hp, pending_token, h1, List.append_assoc,
            slice_append (by omega) hk hkk]
      | m + 2 =>
        cases toks with
        | nil => simp [replayEvents] at hrep
        | cons first toks1 =>
          cases hsp : splitN toks1 (m + 1) with
          | none => simp [replayEvents, hsp] at hrep
          | some pr =>
            obtain ⟨taken, toks2⟩ := pr
            cases htx : toks2 with
            | nil =>
              rw [htx] at hsp
              simp [replayEvents, hsp] at hrep
            | cons last toks3 =>
              rw [htx] at hsp
              simp only [replayEvents, hsp] at hrep
              rw [coversFrom_cons_iff] at hcov
              obtain ⟨h1, h2, h3⟩ := hcov
              obtain ⟨hta, htb, htc⟩ := splitN_some hsp
              obtain ⟨kd, hkd, hcd⟩ := coversFrom_drop (m + 1) h3
              rw [← htb] at hcd
              rw [coversFrom_cons_iff] at hcd
              obtain ⟨g1, g2, g3⟩ := hcd
              obtain ⟨kk, hk, hc, hp⟩ := ih toks3 _ last.span.2 b' toks' g3 hrep
              have hkk : kk ≤ src.length := coversFrom_le hc
              refine ⟨kk, by omega, hc, ?_⟩
              rw [hp, pending_token, h1, List.append_assoc,
                slice_append (by omega) hk hkk]

/-- A successful replay draws exactly `consumedCount es` lexemes. -/
theorem replay_count (src : List Char) :
    ∀ (es : List Event) (toks : List (Lexeme Token)) (b : Builder)
      (b' : Builder) (toks' : List (Lexeme Token)),
      replayEvents src es toks b = some (b', toks') →
      toks.length = consumedCount es + toks'.length := by
  intro es
  induction es with
  | nil =>
    intro toks b b' toks' hrep
    simp only [replayEvents, Option.some.injEq, Prod.mk.injEq] at hrep
    obtain ⟨hb, ht⟩ := hrep
    subst ht
    simp [consumedCount]
  | cons e rest ih =>
    intro toks b b' toks' hrep
    cases e with
    | Open k =>
      simp only [replayEvents] at hrep
      have := ih toks _ b' toks' hrep
      simpa [consumedCount] using this
    | Close =>
      cases hfn : b.finishNode with
      | none => simp [replayEvents, hfn] at hrep
      | some b2 =>
        simp only [replayEvents, hfn] at hrep
        have := ih toks b2 b' toks' hrep
        simpa [consumedCount] using this
    | Advance k =>
      cases toks with
      | nil => simp [replayEvents] at hrep
      | cons lx toks2 =>
        simp only [replayEvents] at hrep
        have := ih toks2 _ b' toks' hrep
        simp [consumedCount, List.length_cons]
        omega
    | AdvanceN k cnt =>
      match cnt with
      | 0 => simp [replayEvents] at hrep
      | 1 =>
        cases toks with
        | nil => simp [replayEvents] at hrep
        | cons lx toks2 =>
          simp only [replayEvents] at hrep
          have := ih toks2 _ b' toks' hrep
          simp [consumedCount, List.length_cons]
          omega
      | m + 2 =>
        cases toks with
        | nil => simp [replayEvents] at hrep
        | cons first toks1 =>
          cases hsp : splitN toks1 (m + 1) with
          | none => simp [replayEvents, hsp] at hrep
          | some pr =>
            obtain ⟨taken, toks2⟩ := pr
            cases htx : toks2 with
            | nil =>
              rw [htx] at hsp
              simp [replayEvents, hsp] at hrep
            | cons last toks3 =>
              rw [htx] at hsp
              simp only [replayEvents, hsp] at hrep
              have hlen := ih toks3 _ b' toks' hrep
              obtain ⟨hta, htb, htc⟩ := splitN_some hsp
              have h3 : toks3.length + 1 = toks1.length - (m + 1) := by
                have hdl : (last :: toks3).length = toks1.length - (m + 1) := by
                  rw [htb, List.length_drop]
                simpa [List.length_cons] using hdl
              simp [consumedCount, List.length_cons]
              omega

theorem replay_append (src : List Char) :
    ∀ (a c : List Event) (toks : List (Lexeme Token)) (bb : Builder),
      replayEvents src (a ++ c) toks bb =
        match replayEvents src a toks bb with
        | none => none
        | some (b', toks') => replayEvents src c toks' b' := by
  intro a
  induction a with
  | nil => intro c toks bb; simp [replayEvents]
  | cons e rest ih =>
    intro c toks bb
    cases e with
    | Open k => simpa [replayEvents] using ih c toks (bb.startNode k)
    | Close =>
      cases hfn : bb.finishNode with
      | none => simp [replayEvents, hfn]
      | some b2 => simpa [replayEvents, hfn] using ih c toks b2
    | Advance k =>
      cases toks with
      | nil => simp [replayEvents]
      | cons lx toks2 => simpa [replayEvents] using ih c toks2 _
    | AdvanceN k cnt =>
      match cnt with
      | 0 => simp [replayEvents]
      | 1 =>
        cases toks with
        | nil => simp [replayEvents]
        | cons lx toks2 => simpa [replayEvents] using ih c toks2 _
      | m + 2 =>
        cases toks with
        | nil => simp [replayEvents]
        | cons first toks1 =>
          cases hsp : splitN toks1 (m + 1) with
          | none => simp [replayEvents, hsp]
          | some pr =>
            obtain ⟨taken, toks2⟩ := pr
            cases htx : toks2 with
            | nil =>
              rw [htx] at hsp
              simp [replayEvents, hsp]
            | cons last toks3 =>
              rw [htx] at hsp
              simpa [replayEvents, hsp] using ih c toks3 _

theorem token_stack_length (b : Builder) (k : Nat) (t : List Char) :
    (b.token k t).stack.length = b.stack.length := by
  obtain ⟨st, tp⟩ := b
  cases st with
  | nil => simp [Builder.token]
  | cons fr rest =>
    obtain ⟨kk, cs⟩ := fr
    simp [Builder.token]

theorem finishNode_stack_length {b b2 : Builder} (h : b.finishNode = some b2) :
    b.stack.length = b2.stack.length + 1 := by
  obtain ⟨st, tp⟩ := b
  match st with
  | [] => simp [Builder.finishNode] at h
  | [(k, cs)] =>
    simp only [Builder.finishNode, Option.some.injEq] at h
    subst h
    simp
  | (k, cs) :: (k2, cs2) :: rest =>
    simp only [Builder.finishNode, Option.some.injEq] at h
    subst h
    simp

/-- A successful replay changes the open-frame count by exactly
(opens − closes) of the replayed events. -/
theorem replay_stack (src : List Char) :
    ∀ (es : List Event) (toks : List (Lexeme Token)) (b : Builder)
      (b' : Builder) (toks' : List (Lexeme Token)),
      replayEvents src es toks b = some (b', toks') →
      b.stack.length + countOpen es = b'.stack.length + countClose es := by
  intro es
  induction es with
  | nil =>
    intro toks b b' toks' hrep
    simp only [replayEvents, Option.some.injEq, Prod.mk.injEq] at hrep
    obtain ⟨hb, ht⟩ := hrep
    subst hb
    simp [countOpen, countClose]
  | cons e rest ih =>
    intro toks b b' toks' hrep
    cases e with
    | Open k =>
      simp only [replayEvents] at hrep
      have := ih toks _ b' toks' hrep
      have hsl : (b.startNode k).stack.length = b.stack.length + 1 := by
        simp [Builder.startNode]
      rw [hsl] at this
      simp [countOpen, countClose]
      omega
    | Close =>
      cases hfn : b.finishNode with
      | none => simp [replayEvents, hfn] at hrep
      | some b2 =>
        simp only [replayEvents, hfn] at hrep
        have := ih toks b2 b' toks' hrep
        have hl := finishNode_stack_length hfn
        simp [countOpen, countClose]
        omega
    | Advance k =>
      cases toks with
      | nil => simp [replayEvents] at hrep
      | cons lx toks2 =>
        simp only [replayEvents] at hrep
        have := ih toks2 _ b' toks' hrep
        rw [token_stack_length] at this
        simpa [countOpen, countClose] using this
    | AdvanceN k cnt =>
      match cnt with
      | 0 => simp [replayEvents] at hrep
      | 1 =>
        cases toks with
        | nil => simp [replayEvents] at hrep
        | cons lx toks2 =>
          simp only [replayEvents] at hrep
          have := ih toks2 _ b' toks' hrep
          rw [token_stack_length] at this
          simpa [countOpen, countClose] using this
      | m + 2 =>
        cases toks with
        | nil => simp [replayEvents] at hrep
        | cons first toks1 =>
          cases hsp : splitN toks1 (m + 1) with
          | none => simp [replayEvents, hsp] at hrep
          | some pr =>
            obtain ⟨taken, toks2⟩ := pr
            cases htx : toks2 with
            | nil =>
              rw [htx] at hsp
              simp [replayEvents, hsp] at hrep
            | cons last toks3 =>
              rw [htx] at hsp
              simp only [replayEvents, hsp] at hrep
              have := ih toks3 _ b' toks' hrep
              rw [token_stack_length] at this
              simpa [countOpen, countClose] using this

/-- Replay of a well-nested event segment, from any builder whose frame
stack is non-empty: it always succeeds, draws exactly its indexed number of
lexemes, and appends a context-independent list `δ` of elements to the
innermost frame's children. -/
theorem nested_replay (src : List Char) {es : List Event} {n : Nat}
    (h : Nested es n) :
    ∀ (toks : List (Lexeme Token)), n ≤ toks.length →
      ∃ δ : List GreenElement,
        ∀ (k : Nat) (cs : List GreenElement)
          (rest : List (Nat × List GreenElement)) (top : List GreenElement),
          replayEvents src es toks ⟨(k, cs) :: rest, top⟩ =
            some (⟨(k, cs ++ δ) :: rest, top⟩, toks.drop n) := by
  induction h with
  | nil =>
    intro toks _
    exact ⟨[], fun k cs rest top => by simp [replayEvents]⟩
  | adv kind h' ih =>
    intro toks hlen
    rename_i es' n'
    cases toks with
    | nil => simp at hlen
    | cons lx toks2 =>
      obtain ⟨δ', hδ⟩ := ih toks2 (by simp at hlen; omega)
      refine ⟨GreenElement.token kind (slice src lx.span.1 lx.span.2) :: δ', ?_⟩
      intro k cs rest top
      simp only [replayEvents, Builder.token, List.drop_succ_cons]
      rw [show cs ++ GreenElement.token kind (slice src lx.span.1 lx.span.2) :: δ'
            = (cs ++ [GreenElement.token kind (slice src lx.span.1 lx.span.2)]) ++ δ'
          by simp]
      exact hδ k _ rest top
  | advN1 kind h' ih =>
    intro toks hlen
    rename_i es' n'
    cases toks with
    | nil => simp at hlen
    | cons lx toks2 =>
      obtain ⟨δ', hδ⟩ := ih toks2 (by simp at hlen; omega)
      refine ⟨GreenElement.token kind (slice src lx.span.1 lx.span.2) :: δ', ?_⟩
      intro k cs rest top
      simp only [replayEvents, Builder.token, List.drop_succ_cons]
      rw [show cs ++ GreenElement.token kind (slice src lx.span.1 lx.span.2) :: δ'
            = (cs ++ [GreenElement.token kind (slice src lx.span.1 lx.span.2)]) ++ δ'
          by simp]
      exact hδ k _ rest top
  | advNm kind m h' ih =>
    intro toks hlen
    rename_i es' n'
    cases toks with
    | nil => simp at hlen
    | cons first toks1 =>
      have hl1 : m + 1 ≤ toks1.length := by simp at hlen; omega
      have hsp : splitN toks1 (m + 1)
          = some (toks1.take (m + 1), toks1.drop (m + 1)) := by
        unfold splitN
        rw [if_pos hl1]
      cases hd : toks1.drop (m + 1) with
      | nil =>
        exfalso
        have := List.length_drop (m + 1) toks1
        rw [hd] at this
        simp at this hlen
        omega
      | cons last toks3 =>
        have h33 : toks1.drop (m + 2) = toks3 := by
          have : toks1.drop (m + 2) = (toks1.drop (m + 1)).drop 1 :=
            (List.drop_drop 1 (m + 1) toks1).symm
          rw [this, hd]
          simp
        have hl3 : n' ≤ toks3.length := by
          have := List.length_drop (m + 2) toks1
          rw [h33] at this
          simp at hlen
          omega
        obtain ⟨δ', hδ⟩ := ih toks3 hl3
        refine ⟨GreenElement.token kind (slice src first.span.1 last.span.2) :: δ', ?_⟩
        intro k cs rest top
        simp only [replayEvents, hsp, hd, Builder.token]
        rw [show cs ++ GreenElement.token kind (slice src first.span.1 last.span.2) :: δ'
              = (cs ++ [GreenElement.token kind (slice src first.span.1 last.span.2)]) ++ δ'
            by simp]
        rw [hδ k _ rest top]
        have hdrop : (first :: toks1).drop (n' + (m + 3)) = toks3.drop n' := by
          have e1 : n' + (m + 3) = (m + 2 + n') + 1 := by omega

          rw [e1, List.drop_succ_cons, ← h33, List.drop_drop]
        rw [hdrop]
  | node kind h₁ h₂ ih₁ ih₂ =>
    intro toks hlen
    rename_i inner es₂ n₁ n₂
    obtain ⟨δ₁, hδ₁⟩ := ih₁ toks (by omega)
    obtain ⟨δ₂, hδ₂⟩ := ih₂ (toks.drop n₁) (by rw [List.length_drop]; omega)
    refine ⟨GreenElement.node kind δ₁ :: δ₂, ?_⟩
    intro k cs rest top
    simp only [replayEvents, Builder.startNode]
    rw [show inner.append (Event.Close :: es₂) = inner ++ Event.Close :: es₂ from rfl]
    rw [replay_append src inner (Event.Close :: es₂) toks _]
    rw [hδ₁ kind [] ((k, cs) :: rest) top]
    simp only [List.nil_append, replayEvents, Builder.finishNode]
    rw [show cs ++ GreenElement.node kind δ₁ :: δ₂
          = (cs ++ [GreenElement.node kind δ₁]) ++ δ₂ by simp]
    rw [show toks.drop (n₁ + n₂) = (toks.drop n₁).drop n₂
          from (List.drop_drop n₂ n₁ toks).symm]
    exact hδ₂ k _ rest top

/-! ## Fuel-trace lemmas -/

/-- A run of lookahead-only steps never changes anything but fuel, and
succeeds as long as the run is no longer than the fuel available. -/
theorem look_run (L : LangExt Token Kind) :
    ∀ (os : List (Op Kind)) (p : Parser Token),
      (∀ o ∈ os, isLook o = true) → os.length ≤ p.fuel →
      runOps L p os = Except.ok { p with fuel := p.fuel - os.length } := by
  intro os
  induction os with
  | nil =>
    intro p _ _
    simp [runOps]
  | cons o os ih =>
    intro p hall hlen
    cases o with
    | adv syn =>
      have := hall (Op.adv syn) (List.mem_cons_self _ _)
      simp [isLook] at this
    | look k =>
      have hf : ¬ p.fuel = 0 := by
        simp only [List.length_cons] at hlen
        omega
      simp only [runOps, Parser.nth, if_neg hf]
      rw [ih { p with fuel := p.fuel - 1 }
        (fun o ho => hall o (List.mem_cons_of_mem _ ho))
        (by simp only [List.length_cons] at hlen; simp; omega)]
      have he : p.fuel - 1 - os.length = p.fuel - (os.length + 1) := by omega
      simp [he]

theorem advance_fuel {L : LangExt Token Kind} {p p' : Parser Token} {syn : Kind}
    (h : Parser.advance L p syn = some p') : p'.fuel = 256 := by
  unfold Parser.advance at h
  by_cases he : p.eof
  · rw [if_pos he] at h
    cases h
  · rw [if_neg he] at h
    simp only [Option.some.injEq] at h
    subst h
    rfl

theorem runOps_append (L : LangExt Token Kind) :
    ∀ (a c : List (Op Kind)) (p : Parser Token),
      runOps L p (a ++ c) =
        match runOps L p a with
        | Except.error e => Except.error e
        | Except.ok p' => runOps L p' c := by
  intro a
  induction a with
  | nil => intro c p; simp [runOps]
  | cons o rest ih =>
    intro c p
    cases o with
    | look k =>
      cases hn : Parser.nth L p k with
      | error e => simp [runOps, hn]
      | ok tp => simpa [runOps, hn] using ih c tp.2
    | adv syn =>
      cases ha : Parser.advance L p syn with
      | none => simp [runOps, ha]
      | some p2 => simpa [runOps, ha] using ih c p2

/-- A well-paced trace, started with full fuel, never hits the stall panic:
each lookahead block is at most 256 calls deep and every advance refills the
fuel to 256. -/
theorem wellPaced_no_stall (L : LangExt Token Kind) :
    ∀ (os : List (Op Kind)), WellPaced os →
      ∀ (p : Parser Token), p.fuel = 256 →
        runOps L p os ≠ Except.error "parser is not advancing" := by
  intro os h
  induction h with
  | done os hall hlen =>
    intro p hf
    rw [look_run L os p hall (by omega)]
    simp
  | block pre syn rest hall hlen hwp ih =>
    intro p hf
    rw [runOps_append, look_run L pre p hall (by omega)]
    simp only [runOps]
    cases hadv : Parser.advance L { p with fuel := p.fuel - pre.length } syn with
    | none =>
      simp only [hadv]
      intro hcontra
      simp only [Except.error.injEq] at hcontra
      exact absurd hcontra (by decide)
    | some p2 =>
      simp only [hadv]
      exact ih p2 (advance_fuel hadv)

/-! ## `finish` helper lemmas -/

/-- `finish` panics whenever the number of lexemes its replay loop draws
differs from the stream length. -/
theorem finish_count_ne {p : Parser Token}
    (h : consumedCount p.events ≠ p.tokens.length) : p.finish = none := by
  unfold Parser.finish
  cases hrep : replayEvents p.source p.events p.tokens ⟨[], []⟩ with
  | none => rfl
  | some pr =>
    obtain ⟨b, rest⟩ := pr
    by_cases hre : rest.isEmpty
    · exfalso
      have hcnt := replay_count p.source p.events p.tokens _ b rest hrep
      have hrnil : rest = [] := List.isEmpty_iff.mp hre
      subst hrnil
      simp only [List.length_nil, Nat.add_zero] at hcnt
      exact h hcnt.symm
    · simp [hre]

/-- `finish` panics whenever some `Open` lacks a matching `Close`. -/
theorem finish_open_unmatched {p : Parser Token}
    (h : countClose p.events < countOpen p.events) : p.finish = none := by
  unfold Parser.finish
  cases hrep : replayEvents p.source p.events p.tokens ⟨[], []⟩ with
  | none => rfl
  | some pr =>
    obtain ⟨b, rest⟩ := pr
    by_cases hre : rest.isEmpty
    · have hst := replay_stack p.source p.events p.tokens ⟨[], []⟩ b rest hrep
      simp only [List.length_nil] at hst
      have hbs : b.stack ≠ [] := by
        intro hnil
        rw [hnil] at hst
        simp at hst
        omega
      have hbf : b.finish = none := by
        unfold Builder.finish
        split
        · next k cs hst2 htp2 => exact absurd hst2 hbs
        · rfl
      simp [hre, hbf]
    · simp [hre]

/-- `finish` succeeds on a single-root well-nested event log whose replay
draws exactly the whole stream. -/
theorem finish_single_root {p : Parser Token} {rk : Nat} {body : List Event}
    {n : Nat} (hev : p.events = Event.Open rk :: body ++ [Event.Close])
    (hb : Nested body n) (hn : n = p.tokens.length) :
    ∃ r, p.finish = some r := by
  obtain ⟨δ, hδ⟩ := nested_replay p.source hb p.tokens (by omega)
  have hd : p.tokens.drop n = [] := List.drop_eq_nil_iff.mpr (by omega)
  have hrep : replayEvents p.source (Event.Open rk :: (body ++ [Event.Close]))
      p.tokens ⟨[], []⟩ = some (⟨[], [GreenElement.node rk δ]⟩, []) := by
    simp only [replayEvents, Builder.startNode]
    rw [replay_append p.source body [Event.Close] p.tokens _]
    rw [hδ rk [] [] []]
    simp only [List.nil_append, replayEvents, Builder.finishNode]
    rw [hd]
  refine ⟨(⟨rk, δ⟩, p.errors), ?_⟩
  unfold Parser.finish
  rw [hev, List.cons_append, hrep]
  simp [Builder.finish]

/-- Anatomy of a successful `finish`: the replay succeeded, drained the
stream, and the builder produced the root. -/
theorem finish_some_parts {p : Parser Token} {t : GreenNode}
    {errs : List (Error Token)} (h : p.finish = some (t, errs)) :
    ∃ b : Builder,
      replayEvents p.source p.events p.tokens ⟨[], []⟩ = some (b, []) ∧
      b.finish = some t ∧ errs = p.errors := by
  unfold Parser.finish at h
  cases hrep : replayEvents p.source p.events p.tokens ⟨[], []⟩ with
  | none => rw [hrep] at h; cases h
  | some pr =>
    obtain ⟨b, rest⟩ := pr
    rw [hrep] at h
    by_cases hre : rest.isEmpty
    · cases hbf : b.finish with
      | none => simp [hre, hbf] at h
      | some root =>
        have hrnil : rest = [] := List.isEmpty_iff.mp hre
        subst hrnil
        simp only [hre, if_true, hbf, List.isEmpty_nil, Option.some.injEq,
          Prod.mk.injEq] at h
        obtain ⟨hroot, herrs⟩ := h
        exact ⟨b, rfl, by rw [hbf, hroot], herrs.symm⟩
    · simp [hre] at h

/-! ## Concrete instances used by witnesses and counterexamples -/

/-- A minimal language: tokens and kinds are numbers, `EOF` is `0`,
`ERR_NODE` is `0`, and `kind_to_raw` is the identity. -/
def L0 : LangExt Nat Nat := ⟨0, 0, fun k => k⟩

def pW7 : Parser Nat := ⟨['x'], [⟨3, (0, 1)⟩], 0, 256, [], []⟩

def pW9 : Parser Nat := ⟨[], [], 0, 256, [], []⟩

def pW8 : Parser Nat := ⟨['y'], [⟨4, (0, 1)⟩], 0, 256, [], []⟩

def pW10 : Parser Nat := ⟨['z'], [⟨6, (0, 1)⟩], 0, 256, [], []⟩

def pC2ce : Parser Nat :=
  ⟨['a', 'b', 'c'], [⟨1, (0, 1)⟩, ⟨1, (1, 2)⟩, ⟨1, (2, 3)⟩], 3, 256,
   [Event.Open 7, Event.AdvanceN 9 2, Event.Close], []⟩

def pC2w : Parser Nat := ⟨[], [], 0, 256, [Event.Advance 1], []⟩

def pC1w : Parser Nat :=
  ⟨['a', 'b'], [⟨1, (0, 1)⟩, ⟨2, (1, 2)⟩], 2, 256,
   [Event.Open 5, Event.Advance 1, Event.Advance 2, Event.Close], []⟩

def pC5a : Parser Nat := ⟨[], [], 0, 256, [Event.Open 3], []⟩

def pC5b : Parser Nat :=
  ⟨['x'], [⟨1, (0, 1)⟩], 1, 256,
   [Event.Open 5, Event.Advance 1, Event.Close], []⟩

def pC5ce : Parser Nat := ⟨[], [], 0, 256, [], []⟩

def pW3 : Parser Nat := ⟨['x'], [⟨7, (0, 1)⟩], 0, 256, [], []⟩

def pC4ce : Parser Nat := ⟨[], [], 0, 256, [], []⟩

def pC4w : Parser Nat := ⟨['x'], [⟨2, (0, 1)⟩], 0, 256, [], []⟩

def pC6w : Parser Nat :=
  ⟨['x'], [⟨1, (0, 1)⟩], 1, 256,
   [Event.Open 4, Event.Advance 1, Event.Close], []⟩

/-! ## Claim theorems -/

/-- Claim C7: bounded lookahead totality. With positive fuel, `nth k`
returns the token `k` positions ahead of the cursor when `pos + k` is
within the lexeme stream, and the distinguished `EOF` token when
`pos + k` is at or past the end; in both cases only fuel changes. -/
theorem nth_bounded_total (L : LangExt Token Kind) (p : Parser Token) (k : Nat)
    (hfuel : 0 < p.fuel) :
    (∀ lx, p.tokens.get? (p.pos + k) = some lx →
      Parser.nth L p k = Except.ok (lx.kind, { p with fuel := p.fuel - 1 })) ∧
    (p.tokens.length ≤ p.pos + k →
      Parser.nth L p k = Except.ok (L.EOF, { p with fuel := p.fuel - 1 })) := by
  constructor
  · intro lx hlx
    unfold Parser.nth
    rw [if_neg (by omega), hlx]
    rfl
  · intro hlen
    unfold Parser.nth
    rw [if_neg (by omega)]
    have hnone : p.tokens.get? (p.pos + k) = none := by
      rw [List.get?_eq_getElem?]
      exact List.getElem?_eq_none hlen
    rw [hnone]
    rfl

theorem nth_bounded_total_witness :
    Parser.nth L0 pW7 0 = Except.ok (3, { pW7 with fuel := pW7.fuel - 1 }) ∧
    Parser.nth L0 pW7 5 = Except.ok (0, { pW7 with fuel := pW7.fuel - 1 }) :=
  ⟨(nth_bounded_total L0 pW7 0 (by decide)).1 ⟨3, (0, 1)⟩ rfl,
   (nth_bounded_total L0 pW7 5 (by decide)).2 (by decide)⟩

/-- Claim C8: raising is pure data. `raise expected` appends exactly one
`Error` whose `found` field is the current lexeme (or the synthetic EOF
lexeme spanning the end of the source), and leaves the cursor, the event
log, the fuel counter, the source and the token stream unchanged; being a
total function, it never panics. -/
theorem raise_pure_data (L : LangExt Token Kind) (p : Parser Token)
    (expected : List String) :
    (Parser.raise L p expected).errors = p.errors ++
        [{ expected := expected,
           found := (p.tokens.get? p.pos).getD (syntheticEOF L p) }] ∧
    (Parser.raise L p expected).pos = p.pos ∧
    (Parser.raise L p expected).events = p.events ∧
    (Parser.raise L p expected).fuel = p.fuel ∧
    (Parser.raise L p expected).source = p.source ∧
    (Parser.raise L p expected).tokens = p.tokens :=
  ⟨rfl, rfl, rfl, rfl, rfl, rfl⟩

theorem raise_pure_data_witness :
    (Parser.raise L0 pW8 ["w"]).errors = pW8.errors ++
        [{ expected := ["w"],
           found := (pW8.tokens.get? pW8.pos).getD (syntheticEOF L0 pW8) }] ∧
    (Parser.raise L0 pW8 ["w"]).pos = pW8.pos ∧
    (Parser.raise L0 pW8 ["w"]).events = pW8.events ∧
    (Parser.raise L0 pW8 ["w"]).fuel = pW8.fuel ∧
    (Parser.raise L0 pW8 ["w"]).source = pW8.source ∧
    (Parser.raise L0 pW8 ["w"]).tokens = pW8.tokens :=
  raise_pure_data L0 pW8 ["w"]

/-- Claim C10: `at_str_nc` bypasses the fuel guard. Its answer does not
depend on the fuel counter at all — even at fuel 0, where any `nth`-based
lookahead (here `nth 0`) panics with the stall diagnostic, `at_str_nc`
still returns its boolean — and since it returns a plain boolean without
touching the parser state, arbitrarily many consecutive calls are never
stopped by the stall detector. -/
theorem at_str_nc_bypasses_fuel [DecidableEq Token] (L : LangExt Token Kind)
    (p : Parser Token) (token : Token) (string : List Char) :
    Parser.at_str_nc L { p with fuel := 0 } token string
        = Parser.at_str_nc L p token string ∧
    Parser.nth L { p with fuel := 0 } 0
        = Except.error "parser is not advancing" :=
  ⟨rfl, rfl⟩

theorem at_str_nc_bypasses_fuel_witness :
    Parser.at_str_nc L0 { pW10 with fuel := 0 } 6 ['z']
        = Parser.at_str_nc L0 pW10 6 ['z'] ∧
    Parser.nth L0 { pW10 with fuel := 0 } 0
        = Except.error "parser is not advancing" :=
  at_str_nc_bypasses_fuel L0 pW10 6 ['z']

/-- Claim C9: `advance_n` performs no end-of-input check. For any `n ≥ 1`
it succeeds, unconditionally setting the cursor to `pos + n`; when that
overshoots the stream length, `eof()` (an equality test) returns `false`,
and the mismatch only surfaces in `finish`, which panics whenever the
events' draw count disagrees with the stream length. -/
theorem advance_n_unchecked (L : LangExt Token Kind) (p : Parser Token)
    (syn : Kind) (n : Nat) (h : 1 ≤ n) :
    ∃ p', Parser.advance_n L p syn n = some p' ∧
      p'.pos = p.pos + n ∧
      p'.tokens = p.tokens ∧
      (p.tokens.length < p.pos + n → p'.eof = false) ∧
      (consumedCount p'.events ≠ p'.tokens.length → p'.finish = none) := by
  refine ⟨Parser.mk p.source p.tokens (p.pos + n) 256
      (p.events ++ [Event.AdvanceN (L.kind_to_raw syn) n]) p.errors,
      ?_, rfl, rfl, ?_, ?_⟩
  · unfold Parser.advance_n
    rw [if_pos h]
  · intro hlt
    simp only [Parser.eof, beq_eq_false_iff_ne, ne_eq]
    omega
  · intro hne
    exact finish_count_ne hne

theorem advance_n_unchecked_witness :
    ∃ p', Parser.advance_n L0 pW9 7 2 = some p' ∧ p'.eof = false ∧
      p'.finish = none := by
  obtain ⟨p', h1, h2, h3, h4, h5⟩ := advance_n_unchecked L0 pW9 7 2 (by decide)
  have hcalc : Parser.advance_n L0 pW9 7 2
      = some ⟨[], [], 2, 256, [Event.AdvanceN 7 2], []⟩ := rfl
  have hp : p' = ⟨[], [], 2, 256, [Event.AdvanceN 7 2], []⟩ :=
    Option.some.inj (h1.symm.trans hcalc)
  subst hp
  exact ⟨_, h1, h4 (by decide), h5 (by decide)⟩

/-- Claim C2 (amended): `finish` panics whenever the number of lexemes its
replay actually draws — one per `Advance` and `AdvanceN(_, 1)`, `n + 1` per
`AdvanceN(_, n)` with `n ≥ 2` because the replay loop draws one lexeme too
many — differs from the stream length. The converse of the original claim
fails: `finish` can also panic when the counts agree (see the
counterexample and the balance theorems). -/
theorem finish_consume_mismatch (p : Parser Token)
    (h : consumedCount p.events ≠ p.tokens.length) : Parser.finish p = none :=
  finish_count_ne h

theorem finish_consume_mismatch_witness : Parser.finish pC2w = none :=
  finish_consume_mismatch pC2w (by decide)

/-- Counterexample to claim C2 as stated: a log whose one `AdvanceN(_, 2)`
event counts as 2 consumed lexemes in the claim's counting, against a
3-lexeme stream — the claim says `finish` must panic, but the replay loop
draws 3 lexemes for that event and `finish` succeeds. -/
theorem finish_consume_iff_counterexample :
    specConsumedCount pC2ce.events ≠ pC2ce.tokens.length ∧
    (Parser.finish pC2ce).isSome = true :=
  ⟨by decide, rfl⟩

/-- Claim C1: round-trip losslessness. If the lexeme spans tile the whole
source (non-overlapping, source-ordered, covering all of it) and `finish`
returns a tree — which it does exactly when every lexeme is drawn by the
events in stream order and every `Open` is matched — then the concatenated
leaf text of that tree reproduces the source exactly. -/
theorem finish_round_trip (p : Parser Token) (t : GreenNode)
    (errs : List (Error Token))
    (hcov : coversFrom 0 p.tokens p.source.length = true)
    (hfin : Parser.finish p = some (t, errs)) :
    GreenNode.leafText t = p.source := by
  obtain ⟨b, hrep, hbf, herrs⟩ := finish_some_parts hfin
  obtain ⟨k, hk, hc, hp⟩ :=
    replay_covers p.source p.events p.tokens ⟨[], []⟩ 0 b [] hcov hrep
  have hkM : k = p.source.length := by
    simpa [coversFrom] using hc
  have hpe : Builder.pending ⟨[], []⟩ = [] := by
    simp [Builder.pending, leafTextList, stackText]
  rw [finish_pending hbf, hp, hpe, List.nil_append, hkM, slice_all]

theorem finish_round_trip_witness :
    GreenNode.leafText
        ⟨5, [GreenElement.token 1 ['a'], GreenElement.token 2 ['b']]⟩
      = pC1w.source :=
  finish_round_trip pC1w _ [] (by decide) rfl

/-- Claim C5 (amended): `finish` always panics when some `Open` lacks its
matching `Close` (more opens than closes). Balance alone, however, does not
rule out a panic — the original claim's "never panics" half fails on the
empty event log (see the counterexample) — the log must in addition form a
single root whose well-nested body draws exactly the whole lexeme stream;
under those conditions `finish` returns normally. -/
theorem finish_balance (p : Parser Token) :
    (countClose p.events < countOpen p.events → Parser.finish p = none) ∧
    (∀ (rk : Nat) (body : List Event) (n : Nat),
      p.events = Event.Open rk :: body ++ [Event.Close] →
      Nested body n → n = p.tokens.length →
      ∃ r, Parser.finish p = some r) :=
  ⟨fun h => finish_open_unmatched h,
   fun _ _ _ hev hb hn => finish_single_root hev hb hn⟩

theorem finish_balance_witness :
    Parser.finish pC5a = none ∧ ∃ r, Parser.finish pC5b = some r :=
  ⟨(finish_balance pC5a).1 (by decide),
   (finish_balance pC5b).2 5 [Event.Advance 1] 1 rfl
     (Nested.adv 1 Nested.nil) (by decide)⟩

/-- Counterexample to claim C5 as stated: in the empty event log every
`open()` (vacuously) has its matching `close()`, yet `finish` panics — its
own documentation says it panics "if no sub-trees were ever opened at
all". -/
theorem finish_balance_counterexample :
    countOpen pC5ce.events = countClose pC5ce.events ∧
    Parser.finish pC5ce = none :=
  ⟨rfl, rfl⟩

/-- Claim C3: the fuel liveness guard. Every lookahead call that does not
coincide with an advance decrements the fuel counter by one; from a full
counter (reset value 256) a run of 257 consecutive lookahead calls panics
with the stall diagnostic while 256 still succeed; every successful
advance resets fuel to 256; and a trace in which every sequence of at most
256 consecutive lookahead calls is followed by an advance never stalls,
regardless of length. -/
theorem fuel_liveness (L : LangExt Token Kind) (p : Parser Token) :
    (∀ k, 0 < p.fuel →
      ∃ t, Parser.nth L p k = Except.ok (t, { p with fuel := p.fuel - 1 })) ∧
    (p.fuel = 256 →
      runOps L p (List.replicate 257 (Op.look 0)) =
          Except.error "parser is not advancing" ∧
      ∃ p', runOps L p (List.replicate 256 (Op.look 0)) = Except.ok p') ∧
    (∀ syn p', Parser.advance L p syn = some p' → p'.fuel = 256) ∧
    (∀ ops, WellPaced ops → p.fuel = 256 →
      runOps L p ops ≠ Except.error "parser is not advancing") := by
  refine ⟨?_, ?_, ?_, ?_⟩
  · intro k hk
    unfold Parser.nth
    rw [if_neg (by omega)]
    exact ⟨_, rfl⟩
  · intro hf
    have h1 := look_run L (List.replicate 256 (Op.look 0)) p
      (fun o ho => by rw [List.eq_of_mem_replicate ho]; rfl)
      (by rw [List.length_replicate]; omega)
    constructor
    · rw [show (257 : Nat) = 256 + 1 from rfl, List.replicate_succ',
        runOps_append, h1]
      have h0 : p.fuel - (List.replicate 256 (Op.look 0 : Op Kind)).length = 0 := by
        rw [List.length_replicate]
        omega
      rw [h0]
      rfl
    · exact ⟨_, h1⟩
  · intro syn p' hadv
    exact advance_fuel hadv
  · intro ops hwp hf
    exact wellPaced_no_stall L ops hwp p hf

theorem fuel_liveness_witness :
    (∃ t, Parser.nth L0 pW3 0 = Except.ok (t, { pW3 with fuel := pW3.fuel - 1 })) ∧
    runOps L0 pW3 (List.replicate 257 (Op.look 0)) =
        Except.error "parser is not advancing" ∧
    runOps L0 pW3 [Op.look 0, Op.adv 1] ≠
        Except.error "parser is not advancing" := by
  refine ⟨(fuel_liveness L0 pW3).1 0 (by decide),
    ((fuel_liveness L0 pW3).2.1 rfl).1, ?_⟩
  exact (fuel_liveness L0 pW3).2.2.2 [Op.look 0, Op.adv 1]
    (WellPaced.block [Op.look 0] 1 []
      (fun o ho => by rw [List.mem_singleton.mp ho]; rfl)
      (by decide)
      (WellPaced.done [] (fun o ho => by cases ho) (by decide)))
    rfl

/-- The error entry `raise` appends: the expected list plus the current (or
synthetic end-of-file) lexeme. -/
def raisedError (L : LangExt Token Kind) (p : Parser Token)
    (expected : List String) : Error Token :=
  { expected := expected, found := (p.tokens.get? p.pos).getD (syntheticEOF L p) }

theorem advance_not_eof {L : LangExt Token Kind} {p : Parser Token} {syn : Kind}
    (he : p.eof = false) :
    Parser.advance L p syn = some (Parser.mk p.source p.tokens (p.pos + 1) 256
      (p.events ++ [Event.Advance (L.kind_to_raw syn)]) p.errors) := by
  unfold Parser.advance
  have hne : ¬ (p.eof = true) := by simp [he]
  rw [if_neg hne]

theorem set_append_cons {α : Type} (pre : List α) (a c : α) (tail : List α) :
    (pre ++ a :: tail).set pre.length c = pre ++ c :: tail := by
  induction pre with
  | nil => rfl
  | cons e rest ih =>
    simp only [List.cons_append, List.length_cons, List.set_cons_succ, ih]

/-- Claim C4 (amended): `advance_with_error(kind, expected)` appends exactly
one `Error` carrying the given expected list, wraps the consumed token in a
node closed with the error-node kind, and advances the cursor by exactly one
token — when the parser is not at EOF. When already at EOF it does not
complete without advancing, as the original claim said: it panics, because
it calls `advance`, whose `assert!(!self.eof())` fails. The
"try production, else advance_with_error" loop therefore terminates
provided it stops at EOF. -/
theorem advance_with_error_spec (L : LangExt Token Kind) (p : Parser Token)
    (syn : Kind) (expected : List String) :
    (p.eof = false →
      Parser.advance_with_error L p syn expected = some
        (Parser.mk p.source p.tokens (p.pos + 1) 256
          (p.events ++ [Event.Open (L.kind_to_raw L.ERR_NODE),
            Event.Advance (L.kind_to_raw syn), Event.Close])
          (p.errors ++ [raisedError L p expected]))) ∧
    (p.eof = true → Parser.advance_with_error L p syn expected = none) := by
  constructor
  · intro he
    have hadv : Parser.advance L (Parser.raise L (Parser.openNode L p).1 expected) syn
        = some (Parser.mk p.source p.tokens (p.pos + 1) 256
            ((p.events ++ [Event.Open (L.kind_to_raw L.ERR_NODE)])
              ++ [Event.Advance (L.kind_to_raw syn)])
            (p.errors ++ [raisedError L p expected])) :=
      advance_not_eof
        (he : Parser.eof (Parser.raise L (Parser.openNode L p).1 expected) = false)
    have hclose : Parser.close L (Parser.mk p.source p.tokens (p.pos + 1) 256
          ((p.events ++ [Event.Open (L.kind_to_raw L.ERR_NODE)])
            ++ [Event.Advance (L.kind_to_raw syn)])
          (p.errors ++ [raisedError L p expected]))
          (Parser.openNode L p).2 L.ERR_NODE
        = some (Parser.mk p.source p.tokens (p.pos + 1) 256
            (p.events ++ [Event.Open (L.kind_to_raw L.ERR_NODE),
              Event.Advance (L.kind_to_raw syn), Event.Close])
            (p.errors ++ [raisedError L p expected]),
          ⟨p.events.length⟩) := by
      unfold Parser.close
      rw [if_pos (by simp [Parser.openNode])]
      rw [show (p.events ++ [Event.Open (L.kind_to_raw L.ERR_NODE)])
            ++ [Event.Advance (L.kind_to_raw syn)]
          = p.events ++ Event.Open (L.kind_to_raw L.ERR_NODE)
            :: [Event.Advance (L.kind_to_raw syn)] by simp]
      rw [show (Parser.openNode L p).2.val = p.events.length from rfl]
      rw [set_append_cons]
      simp [Parser.openNode]
    simp only [Parser.advance_with_error, hadv, hclose]
  · intro he
    have hadv : Parser.advance L (Parser.raise L (Parser.openNode L p).1 expected) syn
        = none := by
      unfold Parser.advance
      exact if_pos
        (he : Parser.eof (Parser.raise L (Parser.openNode L p).1 expected) = true)
    simp only [Parser.advance_with_error, hadv]

theorem advance_with_error_spec_witness :
    Parser.advance_with_error L0 pC4w 2 ["x"] = some
      (Parser.mk pC4w.source pC4w.tokens (pC4w.pos + 1) 256
        (pC4w.events ++ [Event.Open 0, Event.Advance 2, Event.Close])
        (pC4w.errors ++ [raisedError L0 pC4w ["x"]])) ∧
    Parser.advance_with_error L0 pC4ce 1 ["int"] = none :=
  ⟨(advance_with_error_spec L0 pC4w 2 ["x"]).1 rfl,
   (advance_with_error_spec L0 pC4ce 1 ["int"]).2 rfl⟩

/-- Counterexample to claim C4 as stated: at EOF the claim says
`advance_with_error` appends its error, does not advance, and parsing
continues — but the code panics there (`advance`'s not-EOF assertion), so
the call returns no successor state at all. -/
theorem advance_with_error_eof_counterexample :
    pC4ce.eof = true ∧ Parser.advance_with_error L0 pC4ce 1 ["int"] = none :=
  ⟨rfl, rfl⟩

/-- Claim C6: wrapping. For a closed mark addressing a finished subtree
whose `Open` sits at index `pre.length` of the event log (with `mid` its
well-nested body, closed by the final `Close`), `open_before` followed
immediately by `close(_, K)` inserts `Open K` at the mark's index and
appends the new `Close`; replaying the rewritten segment attaches, at
exactly the position in the parent's child list where the old subtree was
attached, a new node of kind `K` whose sole child is that former
subtree. -/
theorem open_before_wraps (L : LangExt Token Kind) (p : Parser Token)
    (pre mid : List Event) (rk : Nat) (K : Kind) (n : Nat)
    (hev : p.events = pre ++ Event.Open rk :: mid ++ [Event.Close])
    (hmid : Nested mid n) :
    ∃ p₁ M₂ pc,
      Parser.open_before L p ⟨pre.length⟩ = some (p₁, M₂) ∧
      Parser.close L p₁ M₂ K = some (pc, ⟨pre.length⟩) ∧
      pc.events = pre ++ Event.Open (L.kind_to_raw K)
        :: Event.Open rk :: mid ++ [Event.Close, Event.Close] ∧
      ∀ (toks : List (Lexeme Token)), n ≤ toks.length →
        ∃ δ,
          (∀ (k : Nat) (cs : List GreenElement)
             (rest : List (Nat × List GreenElement)) (top : List GreenElement),
            replayEvents p.source (Event.Open rk :: mid ++ [Event.Close]) toks
              ⟨(k, cs) :: rest, top⟩
            = some (⟨(k, cs ++ [GreenElement.node rk δ]) :: rest, top⟩,
                toks.drop n)) ∧
          (∀ (k : Nat) (cs : List GreenElement)
             (rest : List (Nat × List GreenElement)) (top : List GreenElement),
            replayEvents p.source
              (Event.Open (L.kind_to_raw K)
                :: Event.Open rk :: mid ++ [Event.Close, Event.Close])
              toks ⟨(k, cs) :: rest, top⟩
            = some (⟨(k, cs ++ [GreenElement.node (L.kind_to_raw K)
                [GreenElement.node rk δ]]) :: rest, top⟩,
                toks.drop n)) := by
  have hlen1 : (⟨pre.length⟩ : CloseMark).val ≤ p.events.length := by
    rw [hev]
    simp
  refine ⟨Parser.mk p.source p.tokens p.pos p.fuel
      (pre ++ Event.Open (L.kind_to_raw L.ERR_NODE)
        :: (Event.Open rk :: mid ++ [Event.Close]))
      p.errors,
    ⟨pre.length⟩,
    Parser.mk p.source p.tokens p.pos p.fuel
      ((pre ++ Event.Open (L.kind_to_raw K)
        :: (Event.Open rk :: mid ++ [Event.Close])) ++ [Event.Close])
      p.errors,
    ?_, ?_, ?_, ?_⟩
  · unfold Parser.open_before
    rw [if_pos hlen1]
    simp [hev, List.take_left, List.drop_left]
  · have hlt : (⟨pre.length⟩ : OpenMark).val <
        (pre ++ Event.Open (L.kind_to_raw L.ERR_NODE)
          :: (Event.Open rk :: mid ++ [Event.Close])).length := by
      simp
    unfold Parser.close
    rw [if_pos hlt]
    rw [show (⟨pre.length⟩ : OpenMark).val = pre.length from rfl]
    rw [set_append_cons]
  · simp [List.append_assoc]
  · intro toks hlen
    obtain ⟨δm, hδ⟩ := nested_replay p.source hmid toks hlen
    refine ⟨δm, ?_, ?_⟩
    · intro k cs rest top
      rw [List.cons_append]
      simp only [replayEvents, Builder.startNode]
      rw [replay_append p.source mid [Event.Close] toks _]
      rw [hδ rk [] ((k, cs) :: rest) top]
      simp only [List.nil_append, replayEvents, Builder.finishNode]
    · intro k cs rest top
      rw [List.cons_append, List.cons_append]
      simp only [replayEvents, Builder.startNode]
      rw [replay_append p.source mid [Event.Close, Event.Close] toks _]
      rw [hδ rk [] ((L.kind_to_raw K, []) :: (k, cs) :: rest) top]
      simp only [List.nil_append, replayEvents, Builder.finishNode]

theorem open_before_wraps_witness :
    ∃ p₁ M₂ pc,
      Parser.open_before L0 pC6w ⟨0⟩ = some (p₁, M₂) ∧
      Parser.close L0 p₁ M₂ 9 = some (pc, ⟨0⟩) ∧
      pc.events = [Event.Open 9, Event.Open 4, Event.Advance 1,
        Event.Close, Event.Close] ∧
      ∃ δ, replayEvents pC6w.source
          [Event.Open 9, Event.Open 4, Event.Advance 1, Event.Close, Event.Close]
          [⟨1, (0, 1)⟩] ⟨[(0, [])], []⟩
        = some (⟨[(0, [GreenElement.node 9 [GreenElement.node 4 δ]])], []⟩, []) := by
  obtain ⟨p₁, M₂, pc, h1, h2, h3, h4⟩ :=
    open_before_wraps L0 pC6w [] [Event.Advance 1] 4 9 1 rfl
      (Nested.adv 1 Nested.nil)
  obtain ⟨δ, hA, hB⟩ := h4 [⟨1, (0, 1)⟩] (by decide)
  exact ⟨p₁, M₂, pc, h1, h2, h3, δ, hB 0 [] [] []⟩

end Viletech
